import Mathlib

set_option maxHeartbeats 1000000

set_option maxRecDepth 10000

/-!
Verification development for the pgq queue manager (a Terraform provider
managing PostgreSQL queue tables).

Go strings are byte sequences, and every string operation in the modelled
code (len, s[0], slicing, SplitN, Index, Replace) works on bytes, so a Go
string is embedded as a list of byte values.  All string literals appearing
in the code are ASCII, so `Char.toNat` on a literal gives exactly its bytes.
-/

abbrev GoStr := List Nat

/-- Byte list of an ASCII Lean string literal. -/
def str (s : String) : GoStr := s.data.map Char.toNat

/-! ## internal/pgq/types.go -/

/-- types.go: `maxIdentifierLength = 63` (PostgreSQL identifier length limit). -/
def maxIdentifierLength : Nat := 63

/-- The first-character test of `QueueName.Valid`:
`(first >= 'a' && first <= 'z') || (first >= 'A' && first <= 'Z') || first == '_'`
(bytes 97..122, 65..90, 95). -/
def isLetterOrUnderscoreByte (b : Nat) : Bool :=
  (97 ≤ b && b ≤ 122) || (65 ≤ b && b ≤ 90) || b == 95

/-- types.go: `QueueName.Valid` — empty check, byte-length check against 63,
then the first-byte check. -/
def QueueName.Valid (q : GoStr) : Bool :=
  if q = [] then false
  else if maxIdentifierLength < q.length then false
  else match q with
    | [] => false
    | first :: _ => isLetterOrUnderscoreByte first

/-- types.go: `SchemaName.Valid` delegates to `QueueName.Valid`. -/
def SchemaName.Valid (s : GoStr) : Bool := QueueName.Valid s

/-- types.go: `MakeFQN` is `fmt.Sprintf("%s.%s", schema, queue)`; byte 46 is `.`. -/
def MakeFQN (schema queue : GoStr) : GoStr := schema ++ 46 :: queue

/-- The first-separator split underlying `strings.SplitN(s, ".", 2)` for the
one-byte separator: `none` when the separator is absent (SplitN then returns a
single part), otherwise the part before the first separator and everything
after it. -/
def splitFirst (sep : Nat) : GoStr → Option (GoStr × GoStr)
  | [] => none
  | b :: rest =>
    if b = sep then some ([], rest)
    else match splitFirst sep rest with
      | none => none
      | some (before, after) => some (b :: before, after)

/-- types.go: `FQN.Split` — `strings.SplitN(string(f), ".", 2)`, an error when
that does not produce two parts (i.e. when the string has no `.`). -/
def FQN.Split (f : GoStr) : Option (GoStr × GoStr) := splitFirst 46 f

/-! ## Claim C6 — validity rules -/

/-- C6: for every byte string N, `QueueName(N).Valid()` (and likewise
`SchemaName(N).Valid()`) is true iff N is non-empty, at most 63 bytes long and
its first byte is an ASCII letter or underscore; moreover the spec's examples:
"valid_queue" is valid, "" , "123queue" and a 64-byte name are not. -/
theorem C6_queueNameValid_characterization :
    (∀ q : GoStr, QueueName.Valid q = true ↔
      q ≠ [] ∧ q.length ≤ maxIdentifierLength ∧
        ∃ b, q.head? = some b ∧ isLetterOrUnderscoreByte b = true)
    ∧ (∀ q : GoStr, SchemaName.Valid q = QueueName.Valid q)
    ∧ QueueName.Valid (str "valid_queue") = true
    ∧ QueueName.Valid (str "") = false
    ∧ QueueName.Valid (str "123queue") = false
    ∧ QueueName.Valid (List.replicate 64 97) = false := by
  refine ⟨?_, fun q => rfl, by decide, by decide, by decide, by decide⟩
  intro q
  cases q with
  | nil => simp [QueueName.Valid]
  | cons b rest =>
    simp only [QueueName.Valid, List.head?_cons, if_neg (List.cons_ne_nil b rest)]
    by_cases h : maxIdentifierLength < (b :: rest).length
    · simp [h, Nat.not_le.mpr h]
    · simp only [if_neg h]
      constructor
      · intro hb
        exact ⟨List.cons_ne_nil b rest, Nat.not_lt.mp h, b, rfl, hb⟩
      · rintro ⟨-, -, c, hc, hcv⟩
        cases hc
        exact hcv

/-! ## Claim C10 — Split on arbitrary strings -/

/-- C10: for every string containing a `.` (byte 46), `FQN.Split` succeeds and
returns the part before the first dot (possibly empty) as schema and the whole
remainder (which may contain further dots) as queue name; for every string
without a dot it fails. -/
theorem C10_split_characterization : ∀ f : GoStr,
    (46 ∈ f →
      FQN.Split f = some (f.takeWhile (fun b => b ≠ 46), (f.dropWhile (fun b => b ≠ 46)).tail))
    ∧ (46 ∉ f → FQN.Split f = none) := by
  intro f
  induction f with
  | nil => simp [FQN.Split, splitFirst]
  | cons b rest ih =>
    by_cases hb : b = 46
    · subst hb
      refine ⟨fun _ => ?_, fun hno => absurd (List.mem_cons_self 46 rest) hno⟩
      simp [FQN.Split, splitFirst, List.takeWhile, List.dropWhile]
    · constructor
      · intro hmem
        have hrest : 46 ∈ rest := by
          rcases List.mem_cons.mp hmem with h | h
          · exact absurd h.symm hb
          · exact h
        have := ih.1 hrest
        simp only [FQN.Split, splitFirst, if_neg hb] at this ⊢
        simp only [this]
        simp [List.takeWhile, List.dropWhile, hb]
      · intro hno
        have hrest : 46 ∉ rest := fun h => hno (List.mem_cons_of_mem b h)
        have := ih.2 hrest
        simp only [FQN.Split, splitFirst, if_neg hb] at this ⊢
        simp [this]

/-- C10 witness: the claim's two concrete examples, "a.b.c" splits into
("a", "b.c") and ".x" into ("", "x"), via the characterization. -/
theorem C10_split_witness :
    FQN.Split (str "a.b.c") = some (str "a", str "b.c")
    ∧ FQN.Split (str ".x") = some (str "", str "x") := by
  constructor
  · have h := (C10_split_characterization (str "a.b.c")).1 (by decide)
    exact h.trans (by decide)
  · have h := (C10_split_characterization (str ".x")).1 (by decide)
    exact h.trans (by decide)

/-! ## Claim C5 — Split after MakeFQN -/

/-- C5 counterexample: the schema name "a.b" passes `Valid` (validation never
inspects bytes after the first), yet splitting `MakeFQN("a.b", "q")` returns
("a", "b.q"), not ("a.b", "q"): Split is not a left inverse of MakeFQN on all
validated inputs. -/
theorem C5_counterexample :
    SchemaName.Valid (str "a.b") = true
    ∧ QueueName.Valid (str "q") = true
    ∧ FQN.Split (MakeFQN (str "a.b") (str "q")) = some (str "a", str "b.q")
    ∧ FQN.Split (MakeFQN (str "a.b") (str "q")) ≠ some (str "a.b", str "q") := by
  refine ⟨by decide, by decide, by decide, by decide⟩

/-- Splitting at the separator byte recovers the two halves as soon as the
left half avoids the separator. -/
theorem splitFirst_append (sep : Nat) (s q : GoStr) (hs : sep ∉ s) :
    splitFirst sep (s ++ sep :: q) = some (s, q) := by
  induction s with
  | nil => simp [splitFirst]
  | cons b rest ih =>
    have hb : b ≠ sep := fun h => hs (h ▸ List.mem_cons_self b rest)
    have hrest : sep ∉ rest := fun h => hs (List.mem_cons_of_mem b h)
    simp [splitFirst, hb, ih hrest]

/-- C5 amended: for every schema and queue name passing `Valid`, if the schema
name additionally contains no `.` (byte 46) — which `Valid` itself does not
guarantee — then splitting `MakeFQN(s, n)` succeeds and returns exactly (s, n). -/
theorem C5_split_makeFQN (s q : GoStr)
    (hs : SchemaName.Valid s = true) (hq : QueueName.Valid q = true)
    (hdot : 46 ∉ s) :
    FQN.Split (MakeFQN s q) = some (s, q) := by
  have := splitFirst_append 46 s q hdot
  simpa [FQN.Split, MakeFQN] using this

/-- C5 witness: the amended theorem at the spec's example,
MakeFQN("public", "test_queue"). -/
theorem C5_split_makeFQN_witness :
    SchemaName.Valid (str "public") = true
    ∧ QueueName.Valid (str "test_queue") = true
    ∧ 46 ∉ str "public"
    ∧ FQN.Split (MakeFQN (str "public") (str "test_queue"))
        = some (str "public", str "test_queue") :=
  ⟨by decide, by decide, by decide,
    C5_split_makeFQN (str "public") (str "test_queue") (by decide) (by decide) (by decide)⟩

/-! ## SHA-256 (crypto/sha256 as used by generateIndexName)

Executable over byte lists; 32-bit words are `Nat` reduced mod 2^32. -/

/-- Reduce to a 32-bit word. -/
def w32 (n : Nat) : Nat := n % 4294967296

/-- Right rotation of a 32-bit word. -/
def rotr32 (k x : Nat) : Nat := w32 ((x >>> k) ||| (x <<< (32 - k)))

def shaCh (x y z : Nat) : Nat := (x &&& y) ^^^ ((x ^^^ 4294967295) &&& z)

def shaMaj (x y z : Nat) : Nat := (x &&& y) ^^^ (x &&& z) ^^^ (y &&& z)

def bigSigma0 (x : Nat) : Nat := rotr32 2 x ^^^ rotr32 13 x ^^^ rotr32 22 x

def bigSigma1 (x : Nat) : Nat := rotr32 6 x ^^^ rotr32 11 x ^^^ rotr32 25 x

def smallSigma0 (x : Nat) : Nat := rotr32 7 x ^^^ rotr32 18 x ^^^ (x >>> 3)

def smallSigma1 (x : Nat) : Nat := rotr32 17 x ^^^ rotr32 19 x ^^^ (x >>> 10)

/-- The 64 SHA-256 round constants. -/
def shaK : List Nat :=
  [1116352408, 1899447441, 3049323471, 3921009573, 961987163,
   1508970993, 2453635748, 2870763221, 3624381080, 310598401,
   607225278, 1426881987, 1925078388, 2162078206, 2614888103,
   3248222580, 3835390401, 4022224774, 264347078, 604807628,
   770255983, 1249150122, 1555081692, 1996064986, 2554220882,
   2821834349, 2952996808, 3210313671, 3336571891, 3584528711,
   113926993, 338241895, 666307205, 773529912, 1294757372,
   1396182291, 1695183700, 1986661051, 2177026350, 2456956037,
   2730485921, 2820302411, 3259730800, 3345764771, 3516065817,
   3600352804, 4094571909, 275423344, 430227734, 506948616,
   659060556, 883997877, 958139571, 1322822218, 1537002063,
   1747873779, 1955562222, 2024104815, 2227730452, 2361852424,
   2428436474, 2756734187, 3204031479, 3329325298]

/-- The SHA-256 initial hash state. -/
def shaInit : List Nat :=
  [1779033703, 3144134277, 1013904242,
   2773480762, 1359893119, 2600822924,
   528734635, 1541459225]

/-- Big-endian 8-byte encoding. -/
def be64 (n : Nat) : List Nat :=
  [(n >>> 56) &&& 255, (n >>> 48) &&& 255, (n >>> 40) &&& 255, (n >>> 32) &&& 255,
   (n >>> 24) &&& 255, (n >>> 16) &&& 255, (n >>> 8) &&& 255, n &&& 255]

/-- Big-endian 4-byte encoding. -/
def be32 (n : Nat) : List Nat :=
  [(n >>> 24) &&& 255, (n >>> 16) &&& 255, (n >>> 8) &&& 255, n &&& 255]

/-- SHA-256 padding: 0x80, zeros to 56 mod 64, then the bit length big-endian. -/
def sha256Pad (msg : List Nat) : List Nat :=
  let len := msg.length
  let padLen := (55 + 64 - len % 64) % 64
  msg ++ 128 :: List.replicate padLen 0 ++ be64 (8 * len)

/-- Big-endian 32-bit words from bytes. -/
def toWords : List Nat → List Nat
  | a :: b :: c :: d :: rest => (((a * 256 + b) * 256 + c) * 256 + d) :: toWords rest
  | _ => []

/-- Extend the 16-word message schedule by `k` further words. -/
def schedExtend : List Nat → Nat → List Nat
  | w, 0 => w
  | w, Nat.succ k =>
    let r := w.reverse
    let wt := w32 (smallSigma1 (r.getD 1 0) + r.getD 6 0 + smallSigma0 (r.getD 14 0) + r.getD 15 0)
    schedExtend (w ++ [wt]) k

/-- One compression round on the state [a,b,c,d,e,f,g,h]; `kw` is Kt + Wt. -/
def roundFn (st : List Nat) (kw : Nat) : List Nat :=
  match st with
  | [a, b, c, d, e, f, g, h] =>
    let t1 := w32 (h + bigSigma1 e + shaCh e f g + kw)
    let t2 := w32 (bigSigma0 a + shaMaj a b c)
    [w32 (t1 + t2), a, b, c, w32 (d + t1), e, f, g]
  | other => other

/-- Compress one 64-byte block into the running hash state. -/
def compressBlock (h : List Nat) (block : List Nat) : List Nat :=
  let w := schedExtend (toWords block) 48
  let kw := List.zipWith (fun k wt => w32 (k + wt)) shaK w
  let st := kw.foldl roundFn h
  List.zipWith (fun x y => w32 (x + y)) h st

/-- Split into 64-byte blocks; structural recursion on a fuel that the byte
count bounds (each step consumes at least one byte). -/
def chunks64Fuel : Nat → List Nat → List (List Nat)
  | _, [] => []
  | 0, l => [l]
  | Nat.succ f, b :: rest => ((b :: rest).take 64) :: chunks64Fuel f ((b :: rest).drop 64)

/-- Split into 64-byte blocks. -/
def chunks64 (l : List Nat) : List (List Nat) := chunks64Fuel l.length l

/-- SHA-256 digest (32 bytes) of a byte string. -/
def sha256 (msg : List Nat) : List Nat :=
  ((chunks64 (sha256Pad msg)).foldl compressBlock shaInit).flatMap be32

/-- Lowercase hex digit byte of a value below 16 (encoding/hex). -/
def hexDigit (n : Nat) : Nat := if n < 10 then 48 + n else 87 + n

/-- encoding/hex EncodeToString over bytes, as a byte string. -/
def hexEncode (bytes : List Nat) : GoStr :=
  bytes.flatMap (fun b => [hexDigit (b / 16), hexDigit (b % 16)])

/-! ## index.go — deterministic index naming -/

/-- index.go constants: `maxColumnNameLength = 20`, `hashLength = 8`. -/
def maxColumnNameLength : Nat := 20

def hashLength : Nat := 8

/-- `strings.Replacer.Replace` semantics (Go standard library, as used by
`generateIndexName`): scan left to right; at each position the first
old-string in argument order that matches is replaced and skipped, otherwise
one byte is copied. Structural recursion on a fuel the input length bounds
(each step consumes at least one byte, as every old-string is non-empty). -/
def goReplaceFuel (pairs : List (GoStr × GoStr)) : Nat → GoStr → GoStr
  | _, [] => []
  | 0, s => s
  | Nat.succ f, b :: rest =>
    match pairs.find? (fun p => !p.1.isEmpty && p.1.isPrefixOf (b :: rest)) with
    | some p => p.2 ++ goReplaceFuel pairs f (List.drop (p.1.length - 1) rest)
    | none => b :: goReplaceFuel pairs f rest

def goReplace (pairs : List (GoStr × GoStr)) (s : GoStr) : GoStr :=
  goReplaceFuel pairs s.length s

/-- generateIndexName's `strings.NewReplacer` arguments, in order:
"(" -> "", ")" -> "", "'" -> "", "\"" -> "", "->>" -> "_", "->" -> "_",
" " -> "_" (bytes: 40, 41, 39, 34, 45, 62, 32, 95). -/
def indexNameReplacerPairs : List (GoStr × GoStr) :=
  [([40], []), ([41], []), ([39], []), ([34], []),
   ([45, 62, 62], [95]), ([45, 62], [95]), ([32], [95])]

/-- The spec's column-cleaning rules, stated as the direct rewriting pass its
words describe: remove `(` `)` `'` `"`, collapse `->>` and `->` to `_`
(the longer operator first), collapse spaces to `_`, copy everything else. -/
def specCleanColumn : GoStr → GoStr
  | [] => []
  | 40 :: s => specCleanColumn s
  | 41 :: s => specCleanColumn s
  | 39 :: s => specCleanColumn s
  | 34 :: s => specCleanColumn s
  | 45 :: 62 :: 62 :: s => 95 :: specCleanColumn s
  | 45 :: 62 :: s => 95 :: specCleanColumn s
  | 32 :: s => 95 :: specCleanColumn s
  | b :: s => b :: specCleanColumn s

/-- The Go replacer instantiated at generateIndexName's pairs agrees with the
spec's cleaning rules. -/
theorem goReplace_eq_specCleanColumn (s : GoStr) :
    goReplace indexNameReplacerPairs s = specCleanColumn s := by
  suffices h : ∀ u : GoStr, ∀ f, u.length ≤ f →
      goReplaceFuel indexNameReplacerPairs f u = specCleanColumn u by
    exact h s s.length le_rfl
  intro u
  induction u using specCleanColumn.induct with
  | case1 => intro f _; cases f <;> rfl
  | case2 s ih =>
    intro f hf
    cases f with
    | zero => simp at hf
    | succ g =>
      simp only [goReplaceFuel, indexNameReplacerPairs, List.find?, List.isPrefixOf,
        List.isEmpty, beq_self_eq_true, Bool.and_self, Bool.not_false, Bool.and_true]
      simpa [specCleanColumn] using ih g (by simpa using Nat.le_of_succ_le_succ hf)
  | case3 s ih =>
    intro f hf
    cases f with
    | zero => simp at hf
    | succ g =>
      simp only [goReplaceFuel, indexNameReplacerPairs, List.find?, List.isPrefixOf,
        List.isEmpty]
      norm_num
      simpa [specCleanColumn] using ih g (by simpa using Nat.le_of_succ_le_succ hf)
  | case4 s ih =>
    intro f hf
    cases f with
    | zero => simp at hf
    | succ g =>
      simp only [goReplaceFuel, indexNameReplacerPairs, List.find?, List.isPrefixOf,
        List.isEmpty]
      norm_num
      simpa [specCleanColumn] using ih g (by simpa using Nat.le_of_succ_le_succ hf)
  | case5 s ih =>
    intro f hf
    cases f with
    | zero => simp at hf
    | succ g =>
      simp only [goReplaceFuel, indexNameReplacerPairs, List.find?, List.isPrefixOf,
        List.isEmpty]
      norm_num
      simpa [specCleanColumn] using ih g (by simpa using Nat.le_of_succ_le_succ hf)
  | case6 s ih =>
    intro f hf
    cases f with
    | zero => simp at hf
    | succ g =>
      simp only [goReplaceFuel, indexNameReplacerPairs, List.find?, List.isPrefixOf,
        List.isEmpty]
      norm_num
      have hlen : s.length ≤ g := by simp at hf; omega
      simpa [specCleanColumn] using ih g hlen
  | case7 s hns ih =>
    intro f hf
    cases f with
    | zero => simp at hf
    | succ g =>
      have hpre : List.isPrefixOf [62] s = false := by
        cases s with
        | nil => rfl
        | cons c t =>
          by_cases hc : c = 62
          · exact absurd rfl (hc ▸ hns t)
          · simp [List.isPrefixOf, hc, Ne.symm hc]
      simp only [goReplaceFuel, indexNameReplacerPairs, List.find?, List.isPrefixOf,
        List.isEmpty, hpre]
      norm_num
      have hlen : s.length ≤ g := by simp at hf; omega
      simpa [specCleanColumn, hpre] using ih g hlen
  | case8 s ih =>
    intro f hf
    cases f with
    | zero => simp at hf
    | succ g =>
      simp only [goReplaceFuel, indexNameReplacerPairs, List.find?, List.isPrefixOf,
        List.isEmpty]
      norm_num
      simpa [specCleanColumn] using ih g (by simpa using Nat.le_of_succ_le_succ hf)
  | case9 b s h40 h41 h39 h34 h453 h452 h32 ih =>
    intro f hf
    cases f with
    | zero => simp at hf
    | succ g =>
      have hb45 : List.isPrefixOf [45, 62, 62] (b :: s) = false ∧
          List.isPrefixOf [45, 62] (b :: s) = false := by
        by_cases hb : b = 45
        · subst hb
          constructor
          · cases s with
            | nil => rfl
            | cons c t =>
              by_cases hc : c = 62
              · subst hc
                cases t with
                | nil => rfl
                | cons d u =>
                  by_cases hd : d = 62
                  · exact absurd rfl (hd ▸ h453 u rfl)
                  · simp [List.isPrefixOf, hd, Ne.symm hd]
              · simp [List.isPrefixOf, hc, Ne.symm hc]
          · cases s with
            | nil => rfl
            | cons c t =>
              by_cases hc : c = 62
              · exact absurd rfl (hc ▸ h452 t rfl)
              · simp [List.isPrefixOf, hc, Ne.symm hc]
        · constructor <;> simp [List.isPrefixOf, hb, Ne.symm hb]
      have hb40 : b ≠ 40 := fun h => h40 h
      have hb41 : b ≠ 41 := fun h => h41 h
      have hb39 : b ≠ 39 := fun h => h39 h
      have hb34 : b ≠ 34 := fun h => h34 h
      have hb32 : b ≠ 32 := fun h => h32 h
      have hp40 : List.isPrefixOf [40] (b :: s) = false := by
        simp [List.isPrefixOf, Ne.symm hb40]
      have hp41 : List.isPrefixOf [41] (b :: s) = false := by
        simp [List.isPrefixOf, Ne.symm hb41]
      have hp39 : List.isPrefixOf [39] (b :: s) = false := by
        simp [List.isPrefixOf, Ne.symm hb39]
      have hp34 : List.isPrefixOf [34] (b :: s) = false := by
        simp [List.isPrefixOf, Ne.symm hb34]
      have hp32 : List.isPrefixOf [32] (b :: s) = false := by
        simp [List.isPrefixOf, Ne.symm hb32]
      simp only [goReplaceFuel, indexNameReplacerPairs, List.find?, List.isEmpty,
        hp40, hp41, hp39, hp34, hp32, hb45.1, hb45.2, Bool.not_false, Bool.true_and,
        Bool.and_false, Bool.false_and, Bool.not_true]
      have heq : specCleanColumn (b :: s) = b :: specCleanColumn s := by
        rw [specCleanColumn.eq_def]
        split
        · next h => exact absurd h (List.cons_ne_nil b s)
        · next s1 h => injection h with hb _; exact absurd hb hb40
        · next s1 h => injection h with hb _; exact absurd hb hb41
        · next s1 h => injection h with hb _; exact absurd hb hb39
        · next s1 h => injection h with hb _; exact absurd hb hb34
        · next s1 h => injection h with hb hs; exact (h453 s1 hb hs).elim
        · next s1 hg h => injection h with hb hs; exact (h452 s1 hb hs).elim
        · next s1 h => injection h with hb _; exact absurd hb hb32
        · next b1 s1 _ _ _ _ _ _ _ h =>
            injection h with hb hs
            subst hb; subst hs; rfl
      rw [heq]
      exact congrArg (b :: ·) (ih g (by simpa using Nat.le_of_succ_le_succ hf))

/-- index.go: `generateIndexName` — clean each column with the replacer,
truncate to 20 bytes, join with `_` after the table name, append the
non-default index type, append the first 8 hex bytes of the SHA-256 of the
comma-joined original column list, append `_idx`, truncate to 63 bytes. -/
def generateIndexName (tableName : GoStr) (columns : List GoStr) (indexType : GoStr) : GoStr :=
  let parts := tableName :: columns.map (fun col =>
    let clean := goReplace indexNameReplacerPairs col
    if maxColumnNameLength < clean.length then clean.take maxColumnNameLength else clean)
  let baseName := List.intercalate [95] parts
  let baseName :=
    if indexType ≠ [] ∧ indexType ≠ str "btree" then baseName ++ 95 :: indexType else baseName
  let hash := sha256 (List.intercalate [44] columns)
  let baseName := baseName ++ 95 :: (hexEncode hash).take hashLength
  let baseName := baseName ++ str "_idx"
  if maxIdentifierLength < baseName.length then baseName.take maxIdentifierLength else baseName

/-- The spec's naming algorithm, assembled as its words describe: clean and
truncate each column expression, join table name and cleaned columns with `_`,
append `_<type>` for a non-default type, append `_` and the first 8 hex
characters of the SHA-256 hash of the comma-joined original column list,
append `_idx`, and keep at most 63 bytes. -/
def specIndexName (tableName : GoStr) (columns : List GoStr) (indexType : GoStr) : GoStr :=
  let cleanedColumns := columns.map (fun col => (specCleanColumn col).take maxColumnNameLength)
  let joined := List.intercalate [95] (tableName :: cleanedColumns)
  let withType :=
    if indexType = [] ∨ indexType = str "btree" then joined else joined ++ 95 :: indexType
  let hashed := withType ++ 95 :: ((hexEncode (sha256 (List.intercalate [44] columns))).take 8)
  (hashed ++ str "_idx").take maxIdentifierLength

/-- Per-column cleaning in the source agrees with the spec's clean-then-truncate. -/
theorem cleanColumn_agree (col : GoStr) :
    (let clean := goReplace indexNameReplacerPairs col
     if maxColumnNameLength < clean.length then clean.take maxColumnNameLength else clean)
    = (specCleanColumn col).take maxColumnNameLength := by
  simp only [goReplace_eq_specCleanColumn]
  by_cases h : maxColumnNameLength < (specCleanColumn col).length
  · simp [h]
  · simp only [if_neg h]
    exact (List.take_of_length_le (Nat.le_of_not_lt h)).symm

/-- The source's generateIndexName computes exactly the spec's algorithm. -/
theorem generateIndexName_eq_specIndexName (t : GoStr) (cols : List GoStr) (ty : GoStr) :
    generateIndexName t cols ty = specIndexName t cols ty := by
  have hmap : cols.map (fun col =>
      let clean := goReplace indexNameReplacerPairs col
      if maxColumnNameLength < clean.length then clean.take maxColumnNameLength else clean)
      = cols.map (fun col => (specCleanColumn col).take maxColumnNameLength) := by
    induction cols with
    | nil => rfl
    | cons c rest ih => simp only [List.map_cons, ih, cleanColumn_agree]
  simp only [generateIndexName, specIndexName, hmap]
  by_cases hty : ty = [] ∨ ty = str "btree"
  · have hty' : ¬(ty ≠ [] ∧ ty ≠ str "btree") := by tauto
    simp only [if_pos hty, if_neg hty', hashLength]
    by_cases hlen : maxIdentifierLength <
        (List.intercalate [95] (t :: cols.map fun col => (specCleanColumn col).take maxColumnNameLength)
          ++ 95 :: (hexEncode (sha256 (List.intercalate [44] cols))).take 8 ++ str "_idx").length
    · simp [hlen]
    · simp only [if_neg hlen]
      exact (List.take_of_length_le (Nat.le_of_not_lt hlen)).symm
  · have hty' : ty ≠ [] ∧ ty ≠ str "btree" := by tauto
    simp only [if_neg hty, if_pos hty', hashLength]
    by_cases hlen : maxIdentifierLength <
        ((List.intercalate [95] (t :: cols.map fun col => (specCleanColumn col).take maxColumnNameLength)
          ++ 95 :: ty)
          ++ 95 :: (hexEncode (sha256 (List.intercalate [44] cols))).take 8 ++ str "_idx").length
    · simp [hlen]
    · simp only [if_neg hlen]
      exact (List.take_of_length_le (Nat.le_of_not_lt hlen)).symm

/-! ## Claim C1 — the naming algorithm matches the spec -/

/-- Hex-digit bytes: 0-9 or a-f. -/
def isHexDigitByte (b : Nat) : Bool := (48 ≤ b && b ≤ 57) || (97 ≤ b && b ≤ 102)

/-- C1: generateIndexName computes exactly the spec's algorithm (clean each
column, join with `_`, non-default type suffix, 8 hex characters of the
SHA-256 of the comma-joined original columns, `_idx`, 63-byte cap); it is
deterministic; and on table "events", columns ["created_at"], type "btree" it
returns "events_created_at_" followed by 8 hex characters ("e878a9d9")
followed by "_idx", shorter than 63 characters. -/
theorem C1_generateIndexName_spec :
    (∀ t cols ty, generateIndexName t cols ty = specIndexName t cols ty)
    ∧ (∀ t t' cols cols' ty ty', t = t' → cols = cols' → ty = ty' →
        generateIndexName t cols ty = generateIndexName t' cols' ty')
    ∧ generateIndexName (str "events") [str "created_at"] (str "btree")
        = str "events_created_at_" ++ str "e878a9d9" ++ str "_idx"
    ∧ (str "e878a9d9").length = 8
    ∧ (∀ b ∈ str "e878a9d9", isHexDigitByte b = true)
    ∧ (generateIndexName (str "events") [str "created_at"] (str "btree")).length < 63 :=
  ⟨generateIndexName_eq_specIndexName,
   fun _ _ _ _ _ _ ht hc hty => by rw [ht, hc, hty],
   by decide, by decide, by decide, by decide⟩

/-! ## Claim C7 — hash disambiguation -/

/-- C7 counterexample: two different single-column lists whose cleaned,
20-byte-truncated forms agree (both "cccccccccccccccccccc") but whose SHA-256
hashes collide on the first 8 hex characters (both "a6cccb99"), so
generateIndexName returns the same full name for both — the 8-hex-character
hash suffix does not always disambiguate. -/
theorem C7_counterexample :
    generateIndexName (str "t") [str "cccccccccccccccccccc,cu5s"] []
      = generateIndexName (str "t") [str "cccccccccccccccccccc,cxhe"] []
    ∧ [str "cccccccccccccccccccc,cu5s"] ≠ [str "cccccccccccccccccccc,cxhe"]
    ∧ (goReplace indexNameReplacerPairs (str "cccccccccccccccccccc,cu5s")).take maxColumnNameLength
      = (goReplace indexNameReplacerPairs (str "cccccccccccccccccccc,cxhe")).take maxColumnNameLength := by
  exact ⟨by decide, by decide, by decide⟩

/-- C7 amended: distinct column lists whose cleaned, truncated forms collapse
to the same joined base still get different full names, provided the first 8
hex characters of the SHA-256 hashes of the two comma-joined original column
lists differ and the name with its hash suffix fits in 63 bytes (no final
truncation); without those two provisos the counterexamples above and the
63-byte cap can equate the names. -/
theorem C7_amended (t : GoStr) (cols1 cols2 : List GoStr) (ty : GoStr)
    (hbase :
      List.intercalate [95] (t :: cols1.map (fun col => (specCleanColumn col).take maxColumnNameLength))
      = List.intercalate [95] (t :: cols2.map (fun col => (specCleanColumn col).take maxColumnNameLength)))
    (hhash : (hexEncode (sha256 (List.intercalate [44] cols1))).take 8
           ≠ (hexEncode (sha256 (List.intercalate [44] cols2))).take 8)
    (hlen : (List.intercalate [95] (t :: cols1.map (fun col => (specCleanColumn col).take maxColumnNameLength))).length
            + ty.length + 14 ≤ 63) :
    generateIndexName t cols1 ty ≠ generateIndexName t cols2 ty := by
  intro heq
  rw [generateIndexName_eq_specIndexName, generateIndexName_eq_specIndexName] at heq
  simp only [specIndexName] at heq
  set j1 := List.intercalate [95]
    (t :: cols1.map (fun col => (specCleanColumn col).take maxColumnNameLength)) with hj1
  set j2 := List.intercalate [95]
    (t :: cols2.map (fun col => (specCleanColumn col).take maxColumnNameLength)) with hj2
  set h1 := (hexEncode (sha256 (List.intercalate [44] cols1))).take 8 with hh1
  set h2 := (hexEncode (sha256 (List.intercalate [44] cols2))).take 8 with hh2
  have hjj : j2 = j1 := hbase.symm
  rw [hjj] at heq
  have hlen8 : h1.length ≤ 8 := by
    rw [hh1, List.length_take]
    exact min_le_left _ _
  have hlen8' : h2.length ≤ 8 := by
    rw [hh2, List.length_take]
    exact min_le_left _ _
  have hidx : (str "_idx").length = 4 := by decide
  by_cases hty : ty = [] ∨ ty = str "btree"
  · simp only [if_pos hty] at heq
    have hfits1 : ((j1 ++ 95 :: h1) ++ str "_idx").length ≤ maxIdentifierLength := by
      simp only [List.length_append, List.length_cons, hidx, maxIdentifierLength]
      omega
    have hfits2 : ((j1 ++ 95 :: h2) ++ str "_idx").length ≤ maxIdentifierLength := by
      simp only [List.length_append, List.length_cons, hidx, maxIdentifierLength]
      omega
    rw [List.take_of_length_le hfits1, List.take_of_length_le hfits2] at heq
    have h' := List.append_cancel_left (List.append_cancel_right heq)
    injection h' with _ hh
    exact hhash hh
  · simp only [if_neg hty] at heq
    have hfits1 : (((j1 ++ 95 :: ty) ++ 95 :: h1) ++ str "_idx").length ≤ maxIdentifierLength := by
      simp only [List.length_append, List.length_cons, hidx, maxIdentifierLength]
      omega
    have hfits2 : (((j1 ++ 95 :: ty) ++ 95 :: h2) ++ str "_idx").length ≤ maxIdentifierLength := by
      simp only [List.length_append, List.length_cons, hidx, maxIdentifierLength]
      omega
    rw [List.take_of_length_le hfits1, List.take_of_length_le hfits2] at heq
    have h' := List.append_cancel_left (List.append_cancel_right heq)
    injection h' with _ hh
    exact hhash hh

/-- C7 witness: the amended theorem at two concrete distinct column lists with
the same cleaned base, different hash prefixes, and an untruncated name. -/
theorem C7_amended_witness :
    (List.intercalate [95] ((str "t") :: [str "cccccccccccccccccccc,aaaa"].map
        (fun col => (specCleanColumn col).take maxColumnNameLength))
      = List.intercalate [95] ((str "t") :: [str "cccccccccccccccccccc,aaab"].map
        (fun col => (specCleanColumn col).take maxColumnNameLength)))
    ∧ ((hexEncode (sha256 (List.intercalate [44] [str "cccccccccccccccccccc,aaaa"]))).take 8
      ≠ (hexEncode (sha256 (List.intercalate [44] [str "cccccccccccccccccccc,aaab"]))).take 8)
    ∧ generateIndexName (str "t") [str "cccccccccccccccccccc,aaaa"] []
      ≠ generateIndexName (str "t") [str "cccccccccccccccccccc,aaab"] [] :=
  ⟨by decide, by decide,
    C7_amended (str "t") [str "cccccccccccccccccccc,aaaa"] [str "cccccccccccccccccccc,aaab"] []
      (by decide) (by decide) (by decide)⟩

/-! ## provider/resource_queue.go — custom index models and the Update diff -/

/-- resource_queue.go customIndexModel / pgq.CustomIndex: name, ordered column
expressions, index type (`Type` in Go; `Type'` here as `Type` is reserved),
optional where predicate (a null where and "" both read back as "" through
ValueString, which is how indexDefinitionEqual and the conversions consume
them). -/
structure CustomIndex where
  Name : GoStr
  Columns : List GoStr
  Type' : GoStr
  Where : GoStr
deriving DecidableEq

/-- The column loop of indexDefinitionEqual: length check then element-wise
equality in order. -/
def columnsEqual : List GoStr → List GoStr → Bool
  | [], [] => true
  | x :: xs, y :: ys => x == y && columnsEqual xs ys
  | _, _ => false

/-- resource_queue.go: `indexDefinitionEqual` — name, type, where, then the
ordered column lists. -/
def indexDefinitionEqual (a b : CustomIndex) : Bool :=
  if a.Name ≠ b.Name then false
  else if a.Type' ≠ b.Type' then false
  else if a.Where ≠ b.Where then false
  else columnsEqual a.Columns b.Columns

/-- Name-keyed map lookup (`stateMap[name]` / `planMap[name]`); the maps in
Update are built keyed by index name, so under the no-duplicate-names
hypothesis `find?` is exactly Go's map lookup. -/
def lookupIdx (l : List CustomIndex) (n : GoStr) : Option CustomIndex :=
  l.find? (fun i => i.Name == n)

/-- resource_queue.go Update: the state-side names scheduled for drop — every
state name absent from the plan map or mapped to a structurally different
definition. -/
def toDrop (stateIdx planIdx : List CustomIndex) : List GoStr :=
  stateIdx.filterMap (fun s =>
    match lookupIdx planIdx s.Name with
    | none => some s.Name
    | some p => if indexDefinitionEqual s p then none else some s.Name)

/-- resource_queue.go Update: the plan-side indexes scheduled for create —
every plan index absent from the state map or mapped to a structurally
different definition. -/
def toCreate (stateIdx planIdx : List CustomIndex) : List CustomIndex :=
  planIdx.filterMap (fun p =>
    match lookupIdx stateIdx p.Name with
    | none => some p
    | some s => if indexDefinitionEqual s p then none else some p)

inductive IndexOp where
  | drop (name : GoStr)
  | create (idx : CustomIndex)
deriving DecidableEq

def isDropOp : IndexOp → Bool
  | .drop _ => true
  | .create _ => false

/-- resource_queue.go Update: DropCustomIndexes on the whole drop set runs
before createCustomIndexesInTransaction on the whole create set. -/
def updateOps (stateIdx planIdx : List CustomIndex) : List IndexOp :=
  (toDrop stateIdx planIdx).map IndexOp.drop
    ++ (toCreate stateIdx planIdx).map IndexOp.create

theorem toDrop_mem_names {s p : List CustomIndex} {n : GoStr}
    (h : n ∈ toDrop s p) : n ∈ s.map CustomIndex.Name := by
  induction s with
  | nil => simpa [toDrop] using h
  | cons s0 rest ih =>
    simp only [toDrop, List.filterMap_cons] at h
    simp only [List.map_cons, List.mem_cons]
    rcases hm : lookupIdx p s0.Name with _ | pi <;> simp only [hm] at h
    · rcases List.mem_cons.mp h with h1 | h2
      · exact Or.inl h1
      · exact Or.inr (ih h2)
    · by_cases he : indexDefinitionEqual s0 pi = true
      · simp only [if_pos he] at h
        exact Or.inr (ih h)
      · simp only [if_neg he] at h
        rcases List.mem_cons.mp h with h1 | h2
        · exact Or.inl h1
        · exact Or.inr (ih h2)

theorem toCreate_mem {s p : List CustomIndex} {i : CustomIndex}
    (h : i ∈ toCreate s p) : i ∈ p := by
  induction p with
  | nil => simpa [toCreate] using h
  | cons p0 rest ih =>
    simp only [toCreate, List.filterMap_cons] at h
    simp only [List.mem_cons]
    rcases hm : lookupIdx s p0.Name with _ | si <;> simp only [hm] at h
    · rcases List.mem_cons.mp h with h1 | h2
      · exact Or.inl h1
      · exact Or.inr (ih h2)
    · by_cases he : indexDefinitionEqual si p0 = true
      · simp only [if_pos he] at h
        exact Or.inr (ih h)
      · simp only [if_neg he] at h
        rcases List.mem_cons.mp h with h1 | h2
        · exact Or.inl h1
        · exact Or.inr (ih h2)

theorem columnsEqual_iff (xs ys : List GoStr) : columnsEqual xs ys = true ↔ xs = ys := by
  induction xs generalizing ys with
  | nil => cases ys <;> simp [columnsEqual]
  | cons x xt ih =>
    cases ys with
    | nil => simp [columnsEqual]
    | cons y yt => simp [columnsEqual, ih]

theorem indexDefinitionEqual_iff (a b : CustomIndex) :
    indexDefinitionEqual a b = true ↔
      a.Name = b.Name ∧ a.Type' = b.Type' ∧ a.Where = b.Where ∧ a.Columns = b.Columns := by
  unfold indexDefinitionEqual
  by_cases h1 : a.Name = b.Name
  · by_cases h2 : a.Type' = b.Type'
    · by_cases h3 : a.Where = b.Where
      · simp [h1, h2, h3, columnsEqual_iff]
      · simp [h1, h2, h3]
    · simp [h1, h2]
  · simp [h1]

theorem lookupIdx_name {l : List CustomIndex} {n : GoStr} {x : CustomIndex}
    (h : lookupIdx l n = some x) : x.Name = n := by
  have := List.find?_some h
  simpa using this

theorem mem_toDrop_iff {s p : List CustomIndex} {n : GoStr}
    (hnd : (s.map CustomIndex.Name).Nodup) :
    n ∈ toDrop s p ↔
      ∃ si, lookupIdx s n = some si ∧
        (lookupIdx p n = none ∨
          ∃ pi, lookupIdx p n = some pi ∧ indexDefinitionEqual si pi = false) := by
  induction s with
  | nil => simp [toDrop, lookupIdx]
  | cons s0 rest ih =>
    simp only [List.map_cons, List.nodup_cons] at hnd
    obtain ⟨hn0, hndr⟩ := hnd
    by_cases hn : n = s0.Name
    · subst hn
      have hlook : lookupIdx (s0 :: rest) s0.Name = some s0 := by
        simp [lookupIdx, List.find?_cons]
      simp only [toDrop, List.filterMap_cons]
      rcases hm : lookupIdx p s0.Name with _ | pi <;> simp only [hm]
      · rw [hlook]
        simp
      · by_cases he : indexDefinitionEqual s0 pi = true
        · simp only [if_pos he]
          rw [hlook]
          constructor
          · intro hmem
            exact absurd (toDrop_mem_names hmem) hn0
          · rintro ⟨si, hsi, hno | ⟨pi', hpi', hne⟩⟩
            · exact Option.noConfusion hno
            · injection hsi with h1
              injection hpi' with h2
              subst h1
              subst h2
              rw [he] at hne
              cases hne
        · simp only [if_neg he]
          rw [hlook]
          constructor
          · intro _
            exact ⟨s0, rfl, Or.inr ⟨pi, rfl, by simpa using he⟩⟩
          · intro _
            exact List.mem_cons_self _ _
    · have hlook : lookupIdx (s0 :: rest) n = lookupIdx rest n := by
        have : (s0.Name == n) = false := by
          simp [Ne.symm hn]
        simp [lookupIdx, List.find?_cons, this]
      simp only [toDrop, List.filterMap_cons]
      rcases hm : lookupIdx p s0.Name with _ | pi <;> simp only [hm]
      · rw [hlook, List.mem_cons]
        simp only [hn, false_or]
        exact ih hndr
      · by_cases he : indexDefinitionEqual s0 pi = true
        · simp only [if_pos he]
          rw [hlook]
          exact ih hndr
        · simp only [if_neg he]
          rw [hlook, List.mem_cons]
          simp only [hn, false_or]
          exact ih hndr

theorem mem_toCreate_iff {s p : List CustomIndex} {i : CustomIndex}
    (hnd : (p.map CustomIndex.Name).Nodup) :
    i ∈ toCreate s p ↔
      i ∈ p ∧ (lookupIdx s i.Name = none ∨
        ∃ si, lookupIdx s i.Name = some si ∧ indexDefinitionEqual si i = false) := by
  induction p with
  | nil => simp [toCreate]
  | cons p0 rest ih =>
    simp only [List.map_cons, List.nodup_cons] at hnd
    obtain ⟨hn0, hndr⟩ := hnd
    simp only [toCreate, List.filterMap_cons]
    rcases hm : lookupIdx s p0.Name with _ | si <;> simp only [hm]
    · constructor
      · intro hmem
        rcases List.mem_cons.mp hmem with rfl | h2
        · exact ⟨List.mem_cons_self _ _, Or.inl hm⟩
        · have h3 := (ih hndr).mp h2
          exact ⟨List.mem_cons_of_mem _ h3.1, h3.2⟩
      · rintro ⟨hip, hcond⟩
        rcases List.mem_cons.mp hip with rfl | hir
        · exact List.mem_cons_self _ _
        · exact List.mem_cons_of_mem _ ((ih hndr).mpr ⟨hir, hcond⟩)
    · by_cases he : indexDefinitionEqual si p0 = true
      · simp only [if_pos he]
        constructor
        · intro hmem
          have h3 := (ih hndr).mp hmem
          exact ⟨List.mem_cons_of_mem _ h3.1, h3.2⟩
        · rintro ⟨hip, hcond⟩
          rcases List.mem_cons.mp hip with rfl | hir
          · rcases hcond with hnone | ⟨si', hsi', hne⟩
            · rw [hm] at hnone
              exact Option.noConfusion hnone
            · rw [hm] at hsi'
              injection hsi' with h1
              subst h1
              rw [he] at hne
              cases hne
          · exact (ih hndr).mpr ⟨hir, hcond⟩
      · simp only [if_neg he]
        constructor
        · intro hmem
          rcases List.mem_cons.mp hmem with rfl | h2
          · exact ⟨List.mem_cons_self _ _, Or.inr ⟨si, hm, by simpa using he⟩⟩
          · have h3 := (ih hndr).mp h2
            exact ⟨List.mem_cons_of_mem _ h3.1, h3.2⟩
        · rintro ⟨hip, hcond⟩
          rcases List.mem_cons.mp hip with rfl | hir
          · exact List.mem_cons_self _ _
          · exact List.mem_cons_of_mem _ ((ih hndr).mpr ⟨hir, hcond⟩)

theorem updateOps_drops_before_creates (s p : List CustomIndex) :
    ∀ i j (hi : i < (updateOps s p).length) (hj : j < (updateOps s p).length),
      isDropOp ((updateOps s p).get ⟨i, hi⟩) = false →
      isDropOp ((updateOps s p).get ⟨j, hj⟩) = true → j < i := by
  intro i j hi hj hc hd
  have hAdrop : ∀ k (hk : k < (updateOps s p).length),
      k < ((toDrop s p).map IndexOp.drop).length →
      isDropOp ((updateOps s p).get ⟨k, hk⟩) = true := by
    intro k hk hkA
    simp only [updateOps, List.get_eq_getElem]
    rw [List.getElem_append_left hkA]
    simp [List.getElem_map, isDropOp]
  have hBcreate : ∀ k (hk : k < (updateOps s p).length),
      ((toDrop s p).map IndexOp.drop).length ≤ k →
      isDropOp ((updateOps s p).get ⟨k, hk⟩) = false := by
    intro k hk hkB
    simp only [updateOps, List.get_eq_getElem]
    rw [List.getElem_append_right hkB]
    simp [List.getElem_map, isDropOp]
  have hiA : ((toDrop s p).map IndexOp.drop).length ≤ i := by
    by_contra hlt
    push_neg at hlt
    have h1 := hAdrop i hi hlt
    rw [hc] at h1
    cases h1
  have hjB : j < ((toDrop s p).map IndexOp.drop).length := by
    by_contra hge
    push_neg at hge
    have h1 := hBcreate j hj hge
    rw [hd] at h1
    cases h1
  omega

/-! ## Claim C2 — the Update reconciliation diff -/

/-- C2: the Update reconciliation is a function of the two name-keyed sets:
a state name is scheduled for drop iff it is absent from the plan map or
mapped to a structurally unequal definition; a plan index is scheduled for
create iff its name is absent from the state map or mapped to a structurally
unequal definition; an index structurally equal in both is neither dropped nor
created; in the executed operation sequence every drop precedes every create;
and structural equality is exactly same name, type, where and element-wise
equal (order-sensitive) column lists. -/
theorem C2_update_reconciliation (stateIdx planIdx : List CustomIndex)
    (hs : (stateIdx.map CustomIndex.Name).Nodup)
    (hp : (planIdx.map CustomIndex.Name).Nodup) :
    (∀ a b, indexDefinitionEqual a b = true ↔
      a.Name = b.Name ∧ a.Type' = b.Type' ∧ a.Where = b.Where ∧ a.Columns = b.Columns)
    ∧ (∀ n, n ∈ toDrop stateIdx planIdx ↔
        ∃ si, lookupIdx stateIdx n = some si ∧
          (lookupIdx planIdx n = none ∨
            ∃ pi, lookupIdx planIdx n = some pi ∧ indexDefinitionEqual si pi = false))
    ∧ (∀ i, i ∈ toCreate stateIdx planIdx ↔
        i ∈ planIdx ∧ (lookupIdx stateIdx i.Name = none ∨
          ∃ si, lookupIdx stateIdx i.Name = some si ∧ indexDefinitionEqual si i = false))
    ∧ (∀ n si pi, lookupIdx stateIdx n = some si → lookupIdx planIdx n = some pi →
        indexDefinitionEqual si pi = true →
        n ∉ toDrop stateIdx planIdx ∧ pi ∉ toCreate stateIdx planIdx)
    ∧ (∀ i j (hi : i < (updateOps stateIdx planIdx).length)
        (hj : j < (updateOps stateIdx planIdx).length),
        isDropOp ((updateOps stateIdx planIdx).get ⟨i, hi⟩) = false →
        isDropOp ((updateOps stateIdx planIdx).get ⟨j, hj⟩) = true → j < i) := by
  refine ⟨indexDefinitionEqual_iff, fun n => mem_toDrop_iff hs,
    fun i => mem_toCreate_iff hp, ?_, updateOps_drops_before_creates _ _⟩
  intro n si pi hsi hpi heq
  constructor
  · intro hmem
    rcases (mem_toDrop_iff hs).mp hmem with ⟨si', hsi', hdisj⟩
    rw [hsi] at hsi'
    injection hsi' with h1
    subst h1
    rcases hdisj with hno | ⟨pi', hpi', hne⟩
    · rw [hpi] at hno
      exact Option.noConfusion hno
    · rw [hpi] at hpi'
      injection hpi' with h2
      subst h2
      rw [heq] at hne
      cases hne
  · intro hmem
    rcases (mem_toCreate_iff hp).mp hmem with ⟨hip, hdisj⟩
    have hname : pi.Name = n := lookupIdx_name hpi
    rw [hname] at hdisj
    rcases hdisj with hno | ⟨si', hsi', hne⟩
    · rw [hsi] at hno
      exact Option.noConfusion hno
    · rw [hsi] at hsi'
      injection hsi' with h2
      subst h2
      rw [heq] at hne
      cases hne

/-- Concrete reconciliation example: state has indexes a (unchanged) and b
(changed in the plan); the plan has a, a changed b is absent, and a new c. -/
def C2stateExample : List CustomIndex :=
  [CustomIndex.mk (str "q_a_idx") [str "a"] (str "btree") (str ""),
   CustomIndex.mk (str "q_b_idx") [str "b"] (str "btree") (str "")]

def C2planExample : List CustomIndex :=
  [CustomIndex.mk (str "q_a_idx") [str "a"] (str "btree") (str ""),
   CustomIndex.mk (str "q_c_idx") [str "c"] (str "gin") (str "")]

/-- C2 witness: on the concrete state/plan pair the unchanged index is
untouched (via the theorem), the absent one is dropped, the new one created. -/
theorem C2_update_reconciliation_witness :
    (C2stateExample.map CustomIndex.Name).Nodup
    ∧ (C2planExample.map CustomIndex.Name).Nodup
    ∧ str "q_a_idx" ∉ toDrop C2stateExample C2planExample
    ∧ str "q_b_idx" ∈ toDrop C2stateExample C2planExample
    ∧ CustomIndex.mk (str "q_c_idx") [str "c"] (str "gin") (str "")
        ∈ toCreate C2stateExample C2planExample := by
  refine ⟨by decide, by decide, ?_, by decide, by decide⟩
  exact ((C2_update_reconciliation C2stateExample C2planExample (by decide) (by decide)).2.2.2.1
    (str "q_a_idx")
    (CustomIndex.mk (str "q_a_idx") [str "a"] (str "btree") (str ""))
    (CustomIndex.mk (str "q_a_idx") [str "a"] (str "btree") (str ""))
    (by decide) (by decide) (by decide)).1

/-! ## internal/pgq/queue.go — CreateSimple and its transaction -/

/-- index.go: the four standard index suffix constants. -/
def indexCreatedAt : GoStr := str "_created_at_idx"

def indexProcessedAtNull : GoStr := str "_processed_at_null_idx"

def indexScheduledFor : GoStr := str "_scheduled_for_idx"

def indexMetadata : GoStr := str "_metadata_idx"

/-- queue.go createTable: the column list of the CREATE TABLE statement, in
source order (name, SQL type). -/
def queueTableColumns : List (String × String) :=
  [("id", "UUID"), ("created_at", "TIMESTAMPTZ"), ("started_at", "TIMESTAMPTZ"),
   ("locked_until", "TIMESTAMPTZ"), ("scheduled_for", "TIMESTAMPTZ"),
   ("processed_at", "TIMESTAMPTZ"), ("consumed_count", "INTEGER"),
   ("error_detail", "TEXT"), ("payload", "JSONB"), ("metadata", "JSONB")]

/-- A DDL statement CreateSimple issues: the queue CREATE TABLE or one of the
standard CREATE INDEX statements (suffix of the index name, body text). -/
inductive QStmt where
  | createTable (columns : List (String × String)) (partitioned : Bool)
  | createIndex (suffix : GoStr) (definition : String)
deriving DecidableEq

/-- queue.go CreateSimple: createTable then createIndexes, i.e. the CREATE
TABLE and the four standard CREATE INDEX statements, in source order. -/
def createSimpleStmts : List QStmt :=
  [QStmt.createTable queueTableColumns false,
   QStmt.createIndex indexCreatedAt "(created_at)",
   QStmt.createIndex indexProcessedAtNull "(processed_at) WHERE (processed_at IS NULL)",
   QStmt.createIndex indexScheduledFor "(scheduled_for ASC NULLS LAST) WHERE (processed_at IS NULL)",
   QStmt.createIndex indexMetadata "USING GIN(metadata) WHERE processed_at IS NULL"]

/-- Running a statement list against the transaction's pending state: `exec`
is the injected database behaviour and may fail at any statement. Returns the
final pending state (`none` on a failure) and the statements issued, in
order. -/
def execSeq {α : Type} (exec : α → QStmt → Option α) : α → List QStmt → Option α × List QStmt
  | db, [] => (some db, [])
  | db, stmt :: rest =>
    match exec db stmt with
    | none => (none, [stmt])
    | some db2 =>
      let r := execSeq exec db2 rest
      (r.1, stmt :: r.2)

inductive CreateErr where
  | queueExists
  | ddlFailure
deriving DecidableEq

/-- queue.go CreateSimple over the transaction model: probe existence; if the
table exists, return QueueExistsError without issuing anything; otherwise run
all five statements against the transaction's pending state and commit —
becoming the new committed state — only if every statement succeeded; the
deferred Rollback discards the pending state otherwise, leaving the committed
state `db` untouched. Returns (committed state, error, issued statements). -/
def CreateSimple {α : Type} (exec : α → QStmt → Option α) (tableExists : Bool) (db : α) :
    α × Option CreateErr × List QStmt :=
  if tableExists then (db, some CreateErr.queueExists, [])
  else
    let r := execSeq exec db createSimpleStmts
    match r.1 with
    | some pending => (pending, none, r.2)
    | none => (db, some CreateErr.ddlFailure, r.2)

theorem execSeq_ok_trace {α : Type} (exec : α → QStmt → Option α) :
    ∀ (l : List QStmt) (db : α), (execSeq exec db l).1.isSome = true →
      (execSeq exec db l).2 = l := by
  intro l
  induction l with
  | nil => intro db _; rfl
  | cons stmt rest ih =>
    intro db hok
    rcases he : exec db stmt with _ | db2
    · simp only [execSeq, he] at hok
      simp at hok
    · simp only [execSeq, he] at hok ⊢
      rw [ih db2 hok]

/-! ## Claim C4 — CreateSimple -/

/-- C4 counterexample: on a successful run the created table is the one
`createSimpleStmts` declares, and its column list has ten entries (id,
created_at, started_at, locked_until, scheduled_for, processed_at,
consumed_count, error_detail, payload, metadata), not nine as the claim
states. -/
theorem C4_counterexample :
    (CreateSimple (fun (n : Nat) _ => some (n + 1)) false 0).2.2.head?
      = some (QStmt.createTable queueTableColumns false)
    ∧ queueTableColumns.length = 10
    ∧ ¬ queueTableColumns.length = 9 := by
  refine ⟨by decide, by decide, by decide⟩

/-- C4 amended: CreateSimple returns QueueExistsError and issues no DDL when
the existence probe reports the table, and otherwise creates the TEN-column
table and the four standard indexes inside one transaction: on success all
five statements ran in order and the committed state is the transaction's
result; on any statement failure the committed state is unchanged (deferred
rollback), never a partially applied prefix. -/
theorem C4_createSimple (α : Type) (exec : α → QStmt → Option α) (tableExists : Bool) (db : α) :
    (tableExists = true →
      CreateSimple exec tableExists db = (db, some CreateErr.queueExists, []))
    ∧ ((CreateSimple exec tableExists db).2.1 = some CreateErr.ddlFailure →
      (CreateSimple exec tableExists db).1 = db)
    ∧ ((CreateSimple exec tableExists db).2.1 = none →
      tableExists = false
      ∧ (CreateSimple exec tableExists db).2.2 = createSimpleStmts
      ∧ (execSeq exec db createSimpleStmts).1 = some (CreateSimple exec tableExists db).1)
    ∧ createSimpleStmts.head? = some (QStmt.createTable queueTableColumns false)
    ∧ queueTableColumns.length = 10
    ∧ (createSimpleStmts.filterMap (fun s =>
        match s with
        | QStmt.createIndex suffix _ => some suffix
        | _ => none))
      = [indexCreatedAt, indexProcessedAtNull, indexScheduledFor, indexMetadata] := by
  refine ⟨?_, ?_, ?_, by decide, by decide, by decide⟩
  · intro h
    simp [CreateSimple, h]
  · intro herr
    by_cases hex : tableExists
    · simp [CreateSimple, hex] at herr
    · rcases hr : (execSeq exec db createSimpleStmts).1 with _ | pending
      · simp [CreateSimple, hex, hr]
      · simp [CreateSimple, hex, hr] at herr
  · intro hok
    by_cases hex : tableExists
    · simp [CreateSimple, hex] at hok
    · refine ⟨by simpa using hex, ?_, ?_⟩
      · rcases hr : (execSeq exec db createSimpleStmts).1 with _ | pending
        · simp [CreateSimple, hex, hr] at hok
        · simp only [CreateSimple, hex, if_false, Bool.false_eq_true, hr]
          exact execSeq_ok_trace exec createSimpleStmts db (by simp [hr])
      · rcases hr : (execSeq exec db createSimpleStmts).1 with _ | pending
        · simp [CreateSimple, hex, hr] at hok
        · simp [CreateSimple, hex, hr]

/-! ## index.go — GetCustomIndexes name filtering -/

/-- index.go GetCustomIndexes: the four reserved full index names for a
queue, `<name><suffix>`, exactly the four values bound to the query's
NOT IN clause. -/
def reservedIndexNames (name : GoStr) : List GoStr :=
  [name ++ indexCreatedAt, name ++ indexProcessedAtNull,
   name ++ indexScheduledFor, name ++ indexMetadata]

/-- The query's `i.relname NOT LIKE '%_pkey'` pattern: `%` matches any
sequence, `_` any single character, so a name matches when it is at least five
bytes and ends in "pkey". -/
def matchesPkeyLike (s : GoStr) : Bool :=
  5 ≤ s.length && List.isSuffixOf (str "pkey") s

/-- index.go GetCustomIndexes, modelled on the table's full set of index
names: the catalog query returns every index on the table whose name does not
match '%_pkey' and is not one of the four reserved standard names. -/
def getCustomIndexNames (name : GoStr) (allIndexes : List GoStr) : List GoStr :=
  allIndexes.filter (fun i => !matchesPkeyLike i && !(i ∈ reservedIndexNames name))

/-! ## Claim C8 — what the custom-index reader can return -/

/-- C8 counterexample: an index named "x_created_at_idx" on queue "q" bears
the reserved suffix "_created_at_idx" yet is returned by the reader — the
query excludes only the four exact names `<queue><suffix>`, not every index
bearing a reserved suffix. -/
theorem C8_counterexample :
    str "x_created_at_idx" ∈ getCustomIndexNames (str "q") [str "x_created_at_idx"]
    ∧ List.isSuffixOf indexCreatedAt (str "x_created_at_idx") = true := by
  refine ⟨by decide, by decide⟩

/-- C8 amended: the reader returns exactly the indexes on the table whose
names do not match the '%_pkey' pattern and are not one of the four reserved
full names `<queue><suffix>`; in particular the table's own primary-key index
`<queue>_pkey` and its four standard indexes are never returned. -/
theorem C8_getCustomIndexes_filter (name : GoStr) (allIndexes : List GoStr) :
    (∀ i, i ∈ getCustomIndexNames name allIndexes ↔
      i ∈ allIndexes ∧ matchesPkeyLike i = false ∧ i ∉ reservedIndexNames name)
    ∧ (name ≠ [] → name ++ str "_pkey" ∉ getCustomIndexNames name allIndexes)
    ∧ name ++ indexCreatedAt ∉ getCustomIndexNames name allIndexes
    ∧ name ++ indexProcessedAtNull ∉ getCustomIndexNames name allIndexes
    ∧ name ++ indexScheduledFor ∉ getCustomIndexNames name allIndexes
    ∧ name ++ indexMetadata ∉ getCustomIndexNames name allIndexes := by
  have hmem : ∀ i, i ∈ getCustomIndexNames name allIndexes ↔
      i ∈ allIndexes ∧ matchesPkeyLike i = false ∧ i ∉ reservedIndexNames name := by
    intro i
    simp only [getCustomIndexNames, List.mem_filter, Bool.and_eq_true, Bool.not_eq_true',
      decide_eq_true_eq, and_assoc]
    constructor
    · rintro ⟨h1, h2, h3⟩
      refine ⟨h1, h2, ?_⟩
      simpa using h3
    · rintro ⟨h1, h2, h3⟩
      refine ⟨h1, h2, ?_⟩
      simpa using h3
  refine ⟨hmem, ?_, ?_, ?_, ?_, ?_⟩
  · intro hne hmem2
    rcases (hmem _).mp hmem2 with ⟨-, hpk, -⟩
    have : matchesPkeyLike (name ++ str "_pkey") = true := by
      simp only [matchesPkeyLike, Bool.and_eq_true, decide_eq_true_eq]
      constructor
      · have : 1 ≤ name.length := by
          cases name with
          | nil => exact absurd rfl hne
          | cons a l => simp
        simp only [List.length_append]
        have h4 : (str "_pkey").length = 5 := by decide
        omega
      · have : str "pkey" <:+ str "_pkey" := ⟨[95], rfl⟩
        have h5 : str "_pkey" <:+ name ++ str "_pkey" := ⟨name, rfl⟩
        exact List.isSuffixOf_iff_suffix.mpr (this.trans h5)
    rw [this] at hpk
    cases hpk
  · intro hmem2
    rcases (hmem _).mp hmem2 with ⟨-, -, hres⟩
    exact hres (by simp [reservedIndexNames])
  · intro hmem2
    rcases (hmem _).mp hmem2 with ⟨-, -, hres⟩
    exact hres (by simp [reservedIndexNames])
  · intro hmem2
    rcases (hmem _).mp hmem2 with ⟨-, -, hres⟩
    exact hres (by simp [reservedIndexNames])
  · intro hmem2
    rcases (hmem _).mp hmem2 with ⟨-, -, hres⟩
    exact hres (by simp [reservedIndexNames])

/-- C8 witness: on queue "q" with the standard indexes, the primary key and a
custom index live, only the custom index is returned (via the filter
characterization). -/
theorem C8_getCustomIndexes_filter_witness :
    str "q_pkey" ∉ getCustomIndexNames (str "q")
      [str "q_pkey", str "q_created_at_idx", str "q_custom_idx"]
    ∧ str "q_custom_idx" ∈ getCustomIndexNames (str "q")
      [str "q_pkey", str "q_created_at_idx", str "q_custom_idx"]
    ∧ str "q_created_at_idx" ∉ getCustomIndexNames (str "q")
      [str "q_pkey", str "q_created_at_idx", str "q_custom_idx"] := by
  refine ⟨?_, by decide, ?_⟩
  · have h := (C8_getCustomIndexes_filter (str "q")
      [str "q_pkey", str "q_created_at_idx", str "q_custom_idx"]).2.1 (by decide)
    simpa using h
  · exact (C8_getCustomIndexes_filter (str "q")
      [str "q_pkey", str "q_created_at_idx", str "q_custom_idx"]).2.2.1

/-! ## internal/pgq/partman.go — UpdatePartitionConfig -/

/-- partman.go PartitionConfig. -/
structure PartitionConfig where
  Interval : GoStr
  Premake : Int
  Retention : GoStr
  DatetimeString : GoStr
  OptimizeConstraint : Int
  DefaultPartition : Bool
deriving DecidableEq

/-- A row of the external partman.part_config table: the five columns the
update statement sets, the flag columns only the registration fixup sets, and
a catch-all for every further column (never touched by this code). -/
structure PartConfigRow where
  partitionInterval : GoStr
  premake : Int
  retention : GoStr
  datetimeString : GoStr
  optimizeConstraint : Int
  retentionKeepIndex : Bool
  retentionKeepTable : Bool
  ignoreDefaultData : Bool
  otherColumns : List (GoStr × GoStr)
deriving DecidableEq

/-- The partman-side calls the manager can issue. -/
inductive PartmanOp where
  | createParent (parentTable : GoStr)
  | updateConfig (parentTable : GoStr)
  | undoPartition (parentTable : GoStr)
deriving DecidableEq

/-- Database state visible to the partition manager: the part_config rows
keyed by parent_table, and all remaining database state. -/
structure PartmanDB (α : Type) where
  partConfig : List (GoStr × PartConfigRow)
  rest : α

/-- The SET list of UpdatePartitionConfig's UPDATE: partition_interval,
premake, retention, datetime_string, optimize_constraint — nothing else. -/
def applyUpdateRow (cfg : PartitionConfig) (r : PartConfigRow) : PartConfigRow :=
  { r with
    partitionInterval := cfg.Interval
    premake := cfg.Premake
    retention := cfg.Retention
    datetimeString := cfg.DatetimeString
    optimizeConstraint := cfg.OptimizeConstraint }

/-- partman.go UpdatePartitionConfig: one UPDATE against part_config's rows
with parent_table = MakeFQN(schema, name). Returns the new database state and
the operations issued. -/
def UpdatePartitionConfig {α : Type} (schema name : GoStr) (cfg : PartitionConfig)
    (db : PartmanDB α) : PartmanDB α × List PartmanOp :=
  let fqn := MakeFQN schema name
  ({ partConfig := db.partConfig.map (fun kr =>
      if kr.1 = fqn then (kr.1, applyUpdateRow cfg kr.2) else kr),
     rest := db.rest },
   [PartmanOp.updateConfig fqn])

/-! ## Claim C9 — the update path's frame -/

/-- C9: UpdatePartitionConfig issues exactly one operation — the UPDATE keyed
by the fully-qualified parent-table name — and never the create_parent
registration; flipping cfg.DefaultPartition has no effect at all; the rest of
the database, the row keys, and every row keyed by a different parent table
are unchanged; and on the target row exactly the five fields Interval,
Premake, Retention, DatetimeString, OptimizeConstraint are set while every
other column keeps its value. -/
theorem C9_updatePartitionConfig (α : Type) (schema name : GoStr)
    (cfg : PartitionConfig) (db : PartmanDB α) :
    (UpdatePartitionConfig schema name cfg db).2
      = [PartmanOp.updateConfig (MakeFQN schema name)]
    ∧ (∀ p, PartmanOp.createParent p ∉ (UpdatePartitionConfig schema name cfg db).2)
    ∧ (∀ p, PartmanOp.undoPartition p ∉ (UpdatePartitionConfig schema name cfg db).2)
    ∧ (∀ b, UpdatePartitionConfig schema name { cfg with DefaultPartition := b } db
        = UpdatePartitionConfig schema name cfg db)
    ∧ (UpdatePartitionConfig schema name cfg db).1.rest = db.rest
    ∧ (UpdatePartitionConfig schema name cfg db).1.partConfig.map Prod.fst
        = db.partConfig.map Prod.fst
    ∧ (∀ k r, (k, r) ∈ db.partConfig → k ≠ MakeFQN schema name →
        (k, r) ∈ (UpdatePartitionConfig schema name cfg db).1.partConfig)
    ∧ (∀ k r, (k, r) ∈ db.partConfig → k = MakeFQN schema name →
        (k, applyUpdateRow cfg r) ∈ (UpdatePartitionConfig schema name cfg db).1.partConfig)
    ∧ (∀ r, (applyUpdateRow cfg r).retentionKeepIndex = r.retentionKeepIndex
        ∧ (applyUpdateRow cfg r).retentionKeepTable = r.retentionKeepTable
        ∧ (applyUpdateRow cfg r).ignoreDefaultData = r.ignoreDefaultData
        ∧ (applyUpdateRow cfg r).otherColumns = r.otherColumns
        ∧ (applyUpdateRow cfg r).partitionInterval = cfg.Interval
        ∧ (applyUpdateRow cfg r).premake = cfg.Premake
        ∧ (applyUpdateRow cfg r).retention = cfg.Retention
        ∧ (applyUpdateRow cfg r).datetimeString = cfg.DatetimeString
        ∧ (applyUpdateRow cfg r).optimizeConstraint = cfg.OptimizeConstraint) := by
  refine ⟨rfl, by simp [UpdatePartitionConfig], by simp [UpdatePartitionConfig],
    fun b => rfl, rfl, ?_, ?_, ?_, fun r => ⟨rfl, rfl, rfl, rfl, rfl, rfl, rfl, rfl, rfl⟩⟩
  · simp only [UpdatePartitionConfig, List.map_map]
    apply List.map_congr_left
    intro kr _
    by_cases h : kr.1 = MakeFQN schema name
    · simp [h, Function.comp]
    · simp [h, Function.comp]
  · intro k r hmem hne
    simp only [UpdatePartitionConfig]
    have := List.mem_map_of_mem (fun kr : GoStr × PartConfigRow =>
      if kr.1 = MakeFQN schema name then (kr.1, applyUpdateRow cfg kr.2) else kr) hmem
    simpa [hne] using this
  · intro k r hmem heq
    simp only [UpdatePartitionConfig]
    have := List.mem_map_of_mem (fun kr : GoStr × PartConfigRow =>
      if kr.1 = MakeFQN schema name then (kr.1, applyUpdateRow cfg kr.2) else kr) hmem
    simpa [heq] using this

/-! ## index.go — the CREATE INDEX statement text and parseIndexDef -/

/-- pgx.Identifier.Sanitize for a single identifier: wrap in double quotes
(byte 34), doubling any embedded double quote. -/
def sanitizeIdent (s : GoStr) : GoStr :=
  34 :: s.flatMap (fun b => if b = 34 then [34, 34] else [b]) ++ [34]

/-- strings.Index(s, sub): the first position of `sub` in `s` (`none` for
Go's -1 result). -/
def goIndex (sub : GoStr) : GoStr → Option Nat
  | [] => if List.isPrefixOf sub [] then some 0 else none
  | b :: t =>
    if List.isPrefixOf sub (b :: t) then some 0 else (goIndex sub t).map (· + 1)

/-- strings.Contains(s, sub). -/
def goContains (s sub : GoStr) : Bool := (goIndex sub s).isSome

/-- strings.LastIndex(s, one-byte needle), located through the reversal. -/
def goLastIndexByte (s : GoStr) (b : Nat) : Option Nat :=
  (goIndex [b] s.reverse).map (fun i => s.length - 1 - i)

/-- strings.ToUpper as it acts on ASCII bytes. Go's ToUpper is Unicode-aware
and can change byte lengths on non-ASCII input, so this per-byte map is exact
only for ASCII-only strings — which the round-trip theorem below requires
through an explicit every-byte-ASCII hypothesis. -/
def toUpperA (s : GoStr) : GoStr := s.map (fun b => if 97 ≤ b ∧ b ≤ 122 then b - 32 else b)

/-- strings.Split for a non-empty separator: split at each occurrence, left to
right; structural recursion on a fuel the input length bounds. -/
def goSplitFuel (sep : GoStr) : Nat → GoStr → List GoStr
  | 0, s => [s]
  | Nat.succ f, s =>
    match goIndex sep s with
    | none => [s]
    | some i => s.take i :: goSplitFuel sep f (s.drop (i + sep.length))

def goSplit (s sep : GoStr) : List GoStr := goSplitFuel sep s.length s

def isSpaceByte (b : Nat) : Bool :=
  b = 32 || b = 9 || b = 10 || b = 11 || b = 12 || b = 13

/-- strings.TrimSpace as it acts on ASCII input. Go also strips non-ASCII
Unicode whitespace (e.g. U+00A0), so this is exact only for ASCII-only
strings — enforced by the round-trip theorem's every-byte-ASCII hypothesis. -/
def goTrimSpace (s : GoStr) : GoStr :=
  ((s.dropWhile (fun b => isSpaceByte b)).reverse.dropWhile (fun b => isSpaceByte b)).reverse

/-- index.go CreateCustomIndexes: the statement text up to and including the
closing parenthesis of the column list — everything the builder writes before
the optional WHERE clause, for a resolved index name. -/
def createIndexHeadText (schema table indexName : GoStr) (idx : CustomIndex) : GoStr :=
  (str "CREATE INDEX IF NOT EXISTS " ++ sanitizeIdent indexName
    ++ str " ON " ++ sanitizeIdent schema ++ str "." ++ sanitizeIdent table
    ++ (if idx.Type' ≠ [] ∧ idx.Type' ≠ str "btree" then str " USING " ++ idx.Type' else []))
    ++ (str " (" ++ List.intercalate (str ", ") idx.Columns ++ str ")")

/-- index.go CreateCustomIndexes: the full CREATE INDEX statement text issued
for one index — name (generated when empty), ON clause, optional USING
clause, parenthesised comma-joined column list, optional WHERE clause. -/
def createIndexSQL (schema table : GoStr) (idx : CustomIndex) : GoStr :=
  let indexName :=
    if idx.Name = [] then generateIndexName table idx.Columns idx.Type' else idx.Name
  createIndexHeadText schema table indexName idx
    ++ (if idx.Where ≠ [] then str " WHERE " ++ idx.Where else [])

/-- index.go parseIndexDef: infer the type from a ` USING <t> ` marker, the
columns from the text between the first `(` and the last `)` (with a trailing
case-insensitive ` WHERE ` clause stripped) split on `", "`, and the
predicate from the text after the first case-insensitive ` WHERE `. -/
def parseIndexDef (name d : GoStr) : CustomIndex :=
  let ty :=
    if goContains d (str " USING gin ") then str "gin"
    else if goContains d (str " USING gist ") then str "gist"
    else if goContains d (str " USING hash ") then str "hash"
    else if goContains d (str " USING brin ") then str "brin"
    else str "btree"
  let cols :=
    match goIndex [40] d, goLastIndexByte d 41 with
    | some cs, some ce =>
      if cs < ce then
        let columnsStr := (d.take ce).drop (cs + 1)
        let columnsStr :=
          match goIndex (str " WHERE ") (toUpperA columnsStr) with
          | some w => columnsStr.take w
          | none => columnsStr
        goSplit columnsStr (str ", ")
      else []
    | _, _ => []
  let wh :=
    match goIndex (str " WHERE ") (toUpperA d) with
    | some w => goTrimSpace (d.drop (w + 7))
    | none => []
  CustomIndex.mk name cols ty wh

theorem goIndex_of_isPrefixOf {sub s : GoStr} (h : List.isPrefixOf sub s = true) :
    goIndex sub s = some 0 := by
  cases s <;> simp [goIndex, h]

theorem goContains_not_isPrefixOf {s sub : GoStr} (h : goContains s sub = false) :
    List.isPrefixOf sub s = false := by
  by_contra hp
  rw [Bool.not_eq_false] at hp
  rw [goContains, goIndex_of_isPrefixOf hp] at h
  cases h

theorem goContains_tail {a : Nat} {t sub : GoStr} (h : goContains (a :: t) sub = false) :
    goContains t sub = false := by
  simp only [goContains, goIndex] at h ⊢
  by_cases hp : List.isPrefixOf sub (a :: t) = true
  · rw [if_pos hp] at h
    cases h
  · rw [if_neg (by simpa using hp)] at h
    simpa using h

theorem goIndex_byte_append (c : Nat) (A B : GoStr) (hA : c ∉ A) :
    goIndex [c] (A ++ c :: B) = some A.length := by
  induction A with
  | nil =>
    have hp : List.isPrefixOf [c] (c :: B) = true := by
      simp [List.isPrefixOf]
    simpa [goIndex] using goIndex_of_isPrefixOf hp
  | cons a t ih =>
    have ha : a ≠ c := fun h => hA (h ▸ List.mem_cons_self a t)
    have ht : c ∉ t := fun h => hA (List.mem_cons_of_mem a h)
    have hp : List.isPrefixOf [c] (a :: (t ++ c :: B)) = false := by
      simp [List.isPrefixOf, Ne.symm ha]
    simp only [List.cons_append, goIndex, List.append_eq, hp, Bool.false_eq_true, if_false,
      ih ht, Option.map_some', List.length_cons]

theorem prefix_short_of_prefix_append {pat x z : GoStr} (h : pat <+: x ++ z)
    (hle : pat.length ≤ x.length) : pat <+: x := by
  have heq : pat = (x ++ z).take pat.length := List.prefix_iff_eq_take.mp h
  rw [List.take_append_of_le_length hle] at heq
  rw [heq]
  exact List.take_prefix _ _

theorem left_prefix_of_prefix_append {pat x z : GoStr} (h : pat <+: x ++ z)
    (hge : x.length ≤ pat.length) : x <+: pat := by
  have heq : pat = (x ++ z).take pat.length := List.prefix_iff_eq_take.mp h
  have hx : pat.take x.length = x := by
    rw [heq, List.take_take, min_eq_left hge, List.take_append_of_le_length le_rfl,
      List.take_length]
  rw [← hx]
  exact List.take_prefix _ _

theorem goIndex_junction (pat x y : GoStr) (hnx : goContains x pat = false)
    (hlast : ∀ b, x.getLast? = some b → b ∉ pat) :
    goIndex pat (x ++ (pat ++ y)) = some x.length := by
  induction x with
  | nil =>
    have hp : List.isPrefixOf pat ([] ++ (pat ++ y)) = true := by
      rw [List.isPrefixOf_iff_prefix]
      exact ⟨y, by simp⟩
    simpa using goIndex_of_isPrefixOf hp
  | cons a t ih =>
    have hp : List.isPrefixOf pat ((a :: t) ++ (pat ++ y)) = false := by
      by_contra hcon
      rw [Bool.not_eq_false, List.isPrefixOf_iff_prefix] at hcon
      by_cases hlen : pat.length ≤ (a :: t).length
      · have h2 := prefix_short_of_prefix_append hcon hlen
        rw [← List.isPrefixOf_iff_prefix] at h2
        rw [goContains_not_isPrefixOf hnx] at h2
        cases h2
      · push_neg at hlen
        have hxp := left_prefix_of_prefix_append hcon (Nat.le_of_lt hlen)
        have hmem : (a :: t).getLast (List.cons_ne_nil a t) ∈ pat :=
          hxp.subset (List.getLast_mem _)
        exact hlast _ (List.getLast?_eq_getLast_of_ne_nil _) hmem
    have hnt : goContains t pat = false := goContains_tail hnx
    have hlt : ∀ b, t.getLast? = some b → b ∉ pat := by
      intro b hb
      apply hlast b
      cases t with
      | nil => cases hb
      | cons c u => rw [List.getLast?_cons_cons]; exact hb
    rw [List.cons_append] at hp
    simp only [List.cons_append, goIndex, List.append_eq, hp, Bool.false_eq_true, if_false,
      ih hnt hlt, Option.map_some', List.length_cons]

theorem goIndex_sep2 (a b : Nat) (hab : b ≠ a) (x y : GoStr)
    (hx : goContains x [a, b] = false) :
    goIndex [a, b] (x ++ a :: b :: y) = some x.length := by
  induction x with
  | nil =>
    have hp : List.isPrefixOf [a, b] (a :: b :: y) = true := by
      simp [List.isPrefixOf]
    simpa [goIndex] using goIndex_of_isPrefixOf hp
  | cons c t ih =>
    have hnt : goContains t [a, b] = false := goContains_tail hx
    have hp : List.isPrefixOf [a, b] ((c :: t) ++ a :: b :: y) = false := by
      cases t with
      | nil => simp [List.isPrefixOf, hab]
      | cons d u =>
        by_contra hcon
        rw [Bool.not_eq_false] at hcon
        simp only [List.cons_append, List.isPrefixOf, Bool.and_eq_true, beq_iff_eq] at hcon
        have hpt : List.isPrefixOf [a, b] (c :: d :: u) = true := by
          simp [List.isPrefixOf, hcon.1, hcon.2.1]
        rw [goContains_not_isPrefixOf hx] at hpt
        cases hpt
    rw [List.cons_append] at hp
    simp only [List.cons_append, goIndex, List.append_eq, hp, Bool.false_eq_true, if_false,
      ih hnt, Option.map_some', List.length_cons]

theorem goContains_nil_pat (s : GoStr) : goContains s [] = true := by
  cases s <;> simp [goContains, goIndex, List.isPrefixOf]

theorem goContains_mono_left (x y pat : GoStr) (h : goContains x pat = true) :
    goContains (x ++ y) pat = true := by
  induction x with
  | nil =>
    cases pat with
    | nil => exact goContains_nil_pat _
    | cons p q => simp [goContains, goIndex, List.isPrefixOf] at h
  | cons a t ih =>
    rw [List.cons_append]
    by_cases hp : List.isPrefixOf pat (a :: (t ++ y)) = true
    · simp [goContains, goIndex_of_isPrefixOf hp]
    · by_cases hp0 : List.isPrefixOf pat (a :: t) = true
      · exfalso
        apply hp
        rw [List.isPrefixOf_iff_prefix] at hp0 ⊢
        exact hp0.trans ⟨y, by simp⟩
      · have ht : goContains t pat = true := by
          simp only [goContains, goIndex, hp0, Bool.false_eq_true, if_false] at h
          simpa using h
        have h2 := ih ht
        simp only [goContains, goIndex, hp, Bool.false_eq_true, if_false]
        simpa using h2

theorem goContains_mono_right (x y pat : GoStr) (h : goContains y pat = true) :
    goContains (x ++ y) pat = true := by
  induction x with
  | nil => simpa using h
  | cons a t ih =>
    rw [List.cons_append]
    by_cases hp : List.isPrefixOf pat (a :: (t ++ y)) = true
    · simp [goContains, goIndex_of_isPrefixOf hp]
    · simp only [goContains, goIndex, hp, Bool.false_eq_true, if_false]
      simpa using ih

theorem goContains_append_elim {x y pat : GoStr} (h : goContains (x ++ y) pat = false) :
    goContains x pat = false ∧ goContains y pat = false := by
  constructor
  · by_contra hc
    rw [Bool.not_eq_false] at hc
    rw [goContains_mono_left x y pat hc] at h
    cases h
  · by_contra hc
    rw [Bool.not_eq_false] at hc
    rw [goContains_mono_right x y pat hc] at h
    cases h

theorem intercalate_cons2 (sep x y : GoStr) (zs : List GoStr) :
    List.intercalate sep (x :: y :: zs) = x ++ sep ++ List.intercalate sep (y :: zs) := by
  simp [List.intercalate, List.intersperse_cons_cons, List.append_assoc]

theorem goContains_none {s sub : GoStr} (h : goContains s sub = false) :
    goIndex sub s = none := by
  simp only [goContains] at h
  exact Option.not_isSome_iff_eq_none.mp (by simp [h])

theorem goSplit_intercalate (cols : List GoStr)
    (hc : ∀ col ∈ cols, goContains col (str ", ") = false) (hne : cols ≠ []) :
    goSplit (List.intercalate (str ", ") cols) (str ", ") = cols := by
  suffices h : ∀ f, (List.intercalate (str ", ") cols).length ≤ f →
      goSplitFuel (str ", ") f (List.intercalate (str ", ") cols) = cols by
    exact h _ le_rfl
  induction cols with
  | nil => exact absurd rfl hne
  | cons c rest ih =>
    cases rest with
    | nil =>
      intro f _
      have hic : List.intercalate (str ", ") [c] = c := by
        simp [List.intercalate]
      rw [hic]
      have hnone : goIndex (str ", ") c = none :=
        goContains_none (hc c (List.mem_cons_self c []))
      cases f with
      | zero => rfl
      | succ g => simp [goSplitFuel, hnone]
    | cons c2 rest2 =>
      intro f hf
      have hi := intercalate_cons2 (str ", ") c c2 rest2
      rw [hi] at hf ⊢
      have hsep : str ", " = [44, 32] := rfl
      have hform : c ++ str ", " ++ List.intercalate (str ", ") (c2 :: rest2)
          = c ++ 44 :: 32 :: List.intercalate (str ", ") (c2 :: rest2) := by
        rw [hsep]
        simp [List.append_assoc]
      have hidx : goIndex (str ", ")
          (c ++ str ", " ++ List.intercalate (str ", ") (c2 :: rest2)) = some c.length := by
        rw [hform, hsep]
        exact goIndex_sep2 44 32 (by decide) c _
          (by rw [← hsep]; exact hc c (List.mem_cons_self c _))
      have hlen2 : 2 ≤ (c ++ str ", " ++ List.intercalate (str ", ") (c2 :: rest2)).length := by
        rw [hform]
        simp only [List.length_append, List.length_cons]
        omega
      cases f with
      | zero => omega
      | succ g =>
        simp only [goSplitFuel, hidx]
        have htake : (c ++ str ", " ++ List.intercalate (str ", ") (c2 :: rest2)).take c.length
            = c := by
          rw [List.append_assoc]
          exact List.take_left c _
        have hdrop : (c ++ str ", " ++ List.intercalate (str ", ") (c2 :: rest2)).drop
            (c.length + (str ", ").length) = List.intercalate (str ", ") (c2 :: rest2) := by
          have : c.length + (str ", ").length = (c ++ str ", ").length := by
            simp [List.length_append]
          rw [this]
          exact List.drop_left _ _
        rw [htake, hdrop]
        have hrest : ∀ col ∈ c2 :: rest2, goContains col (str ", ") = false := by
          intro col hcol
          exact hc col (List.mem_cons_of_mem c hcol)
        have hflen : (List.intercalate (str ", ") (c2 :: rest2)).length ≤ g := by
          rw [hform] at hf
          simp only [List.length_append, List.length_cons] at hf
          omega
        rw [ih hrest (List.cons_ne_nil c2 rest2) g hflen]

theorem not_mem_sanitizeIdent {b : Nat} (hb : b ≠ 34) {s : GoStr} (hs : b ∉ s) :
    b ∉ sanitizeIdent s := by
  intro hmem
  simp only [sanitizeIdent, List.cons_append, List.mem_cons, List.mem_append,
    List.mem_flatMap] at hmem
  rcases hmem with h | ⟨a, ha, hin⟩ | h
  · exact hb h
  · by_cases ha34 : a = 34
    · simp [ha34] at hin
      exact hb hin
    · simp [ha34] at hin
      exact hs (hin ▸ ha)
  · simp at h
    exact hb h

/-- C3 amended: an index created with an explicit name is read back with the
same name, type, columns and predicate, provided the generated statement
parses unambiguously — identifiers free of parentheses, non-empty columns
containing no ", ", no case-insensitive " WHERE " token before the generated
WHERE clause, a predicate free of ")" and surrounding whitespace, no stray
" USING <type> " token — and every byte of the statement is ASCII (on ASCII
input the ToUpper/TrimSpace models coincide byte-for-byte with Go). -/
theorem C3_parse_roundtrip (schema table : GoStr) (idx : CustomIndex)
    (hname : idx.Name ≠ [])
    (hty : idx.Type' ∈ ([str "btree", str "gin", str "gist", str "hash", str "brin"] : List GoStr))
    (hpn : 40 ∉ idx.Name) (hps : 40 ∉ schema) (hpt : 40 ∉ table)
    (hwp : 41 ∉ idx.Where)
    (hcolsne : idx.Columns ≠ [])
    (hcc : ∀ col ∈ idx.Columns, goContains col (str ", ") = false)
    (hhw : goContains (toUpperA (createIndexHeadText schema table idx.Name idx))
      (str " WHERE ") = false)
    (htrim : goTrimSpace idx.Where = idx.Where)
    (hascii : ∀ b ∈ createIndexSQL schema table idx, b < 128)
    (hg1 : goContains (createIndexSQL schema table idx) (str " USING gin ")
      = decide (idx.Type' = str "gin"))
    (hg2 : goContains (createIndexSQL schema table idx) (str " USING gist ")
      = decide (idx.Type' = str "gist"))
    (hg3 : goContains (createIndexSQL schema table idx) (str " USING hash ")
      = decide (idx.Type' = str "hash"))
    (hg4 : goContains (createIndexSQL schema table idx) (str " USING brin ")
      = decide (idx.Type' = str "brin")) :
    parseIndexDef idx.Name (createIndexSQL schema table idx) = idx := by
  obtain ⟨nm, cols, ty, wh⟩ := idx
  simp only at hname hty hpn hwp hcolsne hcc hhw htrim hg1 hg2 hg3 hg4
  -- Abbreviations for the statement's pieces
  set U : GoStr := if ty ≠ [] ∧ ty ≠ str "btree" then str " USING " ++ ty else [] with hU
  set Apre : GoStr := str "CREATE INDEX IF NOT EXISTS " ++ sanitizeIdent nm
    ++ str " ON " ++ sanitizeIdent schema ++ str "." ++ sanitizeIdent table ++ U with hApre
  set X : GoStr := Apre ++ [32] with hX
  set J : GoStr := List.intercalate (str ", ") cols with hJ
  set W : GoStr := if wh ≠ [] then str " WHERE " ++ wh else [] with hW
  set d : GoStr := createIndexSQL schema table (CustomIndex.mk nm cols ty wh) with hd
  -- Decomposition of the generated statement
  have hparen : str " (" = 32 :: [40] := rfl
  have hclose : str ")" = [41] := rfl
  have hhead : createIndexHeadText schema table nm (CustomIndex.mk nm cols ty wh)
      = X ++ 40 :: (J ++ [41]) := by
    simp only [createIndexHeadText, hparen, hclose, hX, hApre, hU, hJ]
    simp [List.append_assoc]
  have hdecomp : d = X ++ 40 :: (J ++ 41 :: W) := by
    rw [hd]
    simp only [createIndexSQL, if_neg hname]
    rw [hhead, hW]
    simp [List.append_assoc]
  -- The '(' and ')' positions
  have htyU : 40 ∉ U ∧ 41 ∉ U ∧ (∀ b ∈ U, b ≠ 34) := by
    simp only [List.mem_cons, List.not_mem_nil, or_false] at hty
    rw [hU]
    rcases hty with rfl | rfl | rfl | rfl | rfl <;> refine ⟨by decide, by decide, by decide⟩
  have hnoparen : 40 ∉ X := by
    rw [hX, hApre]
    simp only [List.mem_append, List.mem_cons, List.not_mem_nil]
    push_neg
    refine ⟨⟨⟨⟨⟨⟨⟨?_, ?_⟩, ?_⟩, ?_⟩, ?_⟩, ?_⟩, ?_⟩, ?_, ?_⟩
    · decide
    · exact not_mem_sanitizeIdent (by decide) hpn
    · decide
    · exact not_mem_sanitizeIdent (by decide) hps
    · decide
    · exact not_mem_sanitizeIdent (by decide) hpt
    · exact htyU.1
    · decide
    · exact not_false
  have hE4 : goIndex [40] d = some X.length := by
    rw [hdecomp]
    exact goIndex_byte_append 40 X _ hnoparen
  have hE5 : goLastIndexByte d 41 = some (X.length + 1 + J.length) := by
    have h41W : 41 ∉ W.reverse := by
      rw [hW]
      by_cases hwh : wh = []
      · simp [hwh]
      · rw [if_pos hwh]
        simp only [List.mem_reverse, List.mem_append]
        push_neg
        exact ⟨by decide, hwp⟩
    have hrev : d.reverse = W.reverse ++ 41 :: (J.reverse ++ 40 :: X.reverse) := by
      rw [hdecomp]
      simp [List.reverse_append, List.append_assoc]
    have hidx := goIndex_byte_append 41 W.reverse (J.reverse ++ 40 :: X.reverse) h41W
    have hdlen : d.length = X.length + 1 + J.length + 1 + W.length := by
      rw [hdecomp]
      simp only [List.length_append, List.length_cons]
      omega
    simp only [goLastIndexByte, hrev, hidx, Option.map_some', List.length_reverse]
    rw [hdlen]
    congr 1
    omega
  have hcs_lt : X.length < X.length + 1 + J.length := by omega
  have hE6 : (d.take (X.length + 1 + J.length)).drop (X.length + 1) = J := by
    have h1 : d = (X ++ 40 :: J) ++ 41 :: W := by
      rw [hdecomp]
      simp [List.append_assoc]
    have h2 : (X ++ 40 :: J).length = X.length + 1 + J.length := by
      simp only [List.length_append, List.length_cons]
      omega
    rw [h1, ← h2, List.take_left]
    have h3 : X ++ 40 :: J = (X ++ [40]) ++ J := by
      simp [List.append_assoc]
    have h4 : (X ++ [40]).length = X.length + 1 := by
      simp
    rw [h3, ← h4, List.drop_left]
  have hheadeq2 : createIndexHeadText schema table nm (CustomIndex.mk nm cols ty wh)
      = ((X ++ [40]) ++ J) ++ [41] := by
    rw [hhead]
    simp [List.append_assoc]
  have hupJ : goIndex (str " WHERE ") (toUpperA J) = none := by
    apply goContains_none
    have hup : toUpperA (createIndexHeadText schema table nm (CustomIndex.mk nm cols ty wh))
        = (toUpperA (X ++ [40]) ++ toUpperA J) ++ toUpperA [41] := by
      rw [hheadeq2]
      simp [toUpperA, List.map_append]
    rw [hup] at hhw
    exact ((goContains_append_elim ((goContains_append_elim hhw).1)).2)
  have hcols_eq : goSplit J (str ", ") = cols := by
    rw [hJ]
    exact goSplit_intercalate cols hcc hcolsne
  have hty_eq : (if goContains d (str " USING gin ") = true then str "gin"
      else if goContains d (str " USING gist ") = true then str "gist"
      else if goContains d (str " USING hash ") = true then str "hash"
      else if goContains d (str " USING brin ") = true then str "brin"
      else str "btree") = ty := by
    simp only [List.mem_cons, List.not_mem_nil, or_false] at hty
    rcases hty with rfl | rfl | rfl | rfl | rfl
    · have e1 : goContains d (str " USING gin ") = false := by rw [hg1]; rfl
      have e2 : goContains d (str " USING gist ") = false := by rw [hg2]; rfl
      have e3 : goContains d (str " USING hash ") = false := by rw [hg3]; rfl
      have e4 : goContains d (str " USING brin ") = false := by rw [hg4]; rfl
      simp [e1, e2, e3, e4]
    · have e1 : goContains d (str " USING gin ") = true := by rw [hg1]; rfl
      simp [e1]
    · have e1 : goContains d (str " USING gin ") = false := by rw [hg1]; rfl
      have e2 : goContains d (str " USING gist ") = true := by rw [hg2]; rfl
      simp [e1, e2]
    · have e1 : goContains d (str " USING gin ") = false := by rw [hg1]; rfl
      have e2 : goContains d (str " USING gist ") = false := by rw [hg2]; rfl
      have e3 : goContains d (str " USING hash ") = true := by rw [hg3]; rfl
      simp [e1, e2, e3]
    · have e1 : goContains d (str " USING gin ") = false := by rw [hg1]; rfl
      have e2 : goContains d (str " USING gist ") = false := by rw [hg2]; rfl
      have e3 : goContains d (str " USING hash ") = false := by rw [hg3]; rfl
      have e4 : goContains d (str " USING brin ") = true := by rw [hg4]; rfl
      simp [e1, e2, e3, e4]
  have hwh_eq : (match goIndex (str " WHERE ") (toUpperA d) with
      | some w => goTrimSpace (d.drop (w + 7))
      | none => []) = wh := by
    by_cases hwhe : wh = []
    · have hdh : d = createIndexHeadText schema table nm (CustomIndex.mk nm cols ty wh) := by
        rw [hd]
        simp [createIndexSQL, if_neg hname, hwhe]
      rw [hdh, goContains_none hhw, hwhe]
    · have hdW : d = createIndexHeadText schema table nm (CustomIndex.mk nm cols ty wh)
          ++ (str " WHERE " ++ wh) := by
        rw [hd]
        simp only [createIndexSQL, if_neg hname, if_pos hwhe]
      have hupWHERE : toUpperA (str " WHERE ") = str " WHERE " := by decide
      have hupd : toUpperA d
          = toUpperA (createIndexHeadText schema table nm (CustomIndex.mk nm cols ty wh))
            ++ (str " WHERE " ++ toUpperA wh) := by
        rw [hdW]
        simp only [toUpperA, List.map_append]
        rw [← toUpperA, ← toUpperA, ← toUpperA, hupWHERE]
      have hlastup : ∀ b, (toUpperA (createIndexHeadText schema table nm
          (CustomIndex.mk nm cols ty wh))).getLast? = some b → b ∉ str " WHERE " := by
        intro b hb
        have hform : toUpperA (createIndexHeadText schema table nm (CustomIndex.mk nm cols ty wh))
            = toUpperA ((X ++ [40]) ++ J) ++ [41] := by
          rw [hheadeq2]
          simp [toUpperA, List.map_append]
        rw [hform, List.getLast?_concat] at hb
        injection hb with hb41
        subst hb41
        decide
      have hjun := goIndex_junction (str " WHERE ")
        (toUpperA (createIndexHeadText schema table nm (CustomIndex.mk nm cols ty wh)))
        (toUpperA wh) hhw hlastup
      rw [hupd, hjun]
      have hlen7 : (toUpperA (createIndexHeadText schema table nm
          (CustomIndex.mk nm cols ty wh))).length
          = (createIndexHeadText schema table nm (CustomIndex.mk nm cols ty wh)).length := by
        simp [toUpperA]
      have hdrop : d.drop ((createIndexHeadText schema table nm
          (CustomIndex.mk nm cols ty wh)).length + 7) = wh := by
        rw [hdW]
        have h5 : (createIndexHeadText schema table nm (CustomIndex.mk nm cols ty wh)).length + 7
            = (createIndexHeadText schema table nm (CustomIndex.mk nm cols ty wh)
              ++ str " WHERE ").length := by
          have h7 : (str " WHERE ").length = 7 := rfl
          simp only [List.length_append]
          omega
        rw [h5]
        have h6 : createIndexHeadText schema table nm (CustomIndex.mk nm cols ty wh)
            ++ (str " WHERE " ++ wh)
            = (createIndexHeadText schema table nm (CustomIndex.mk nm cols ty wh)
              ++ str " WHERE ") ++ wh := by
          simp [List.append_assoc]
        rw [h6, List.drop_left]
      simp only [hlen7, hdrop, htrim]
  show parseIndexDef nm d = CustomIndex.mk nm cols ty wh
  simp only [parseIndexDef, hE4, hE5, hupJ, hty_eq, hwh_eq, if_pos hcs_lt, hE6]
  rw [hcols_eq]

/-- C3 counterexample: a partial index created with the natural parenthesised
predicate "(processed_at IS NULL)" does not round-trip: the last ')' of the
definition text lies inside the WHERE clause, so the parsed column list comes
back as ["a)"] instead of ["a"]. -/
theorem C3_counterexample :
    (parseIndexDef (str "i1") (createIndexSQL (str "public") (str "q")
      (CustomIndex.mk (str "i1") [str "a"] (str "btree") (str "(processed_at IS NULL)")))).Columns
      = [str "a)"]
    ∧ (CustomIndex.mk (str "i1") [str "a"] (str "btree") (str "(processed_at IS NULL)")).Columns
      = [str "a"]
    ∧ parseIndexDef (str "i1") (createIndexSQL (str "public") (str "q")
        (CustomIndex.mk (str "i1") [str "a"] (str "btree") (str "(processed_at IS NULL)")))
      ≠ CustomIndex.mk (str "i1") [str "a"] (str "btree") (str "(processed_at IS NULL)") := by
  refine ⟨by decide, by decide, by decide⟩

/-- C3 witness: a gin index with an expression column and an unparenthesised
predicate round-trips exactly, via the amended theorem. -/
theorem C3_parse_roundtrip_witness :
    parseIndexDef (str "by_user") (createIndexSQL (str "public") (str "q")
      (CustomIndex.mk (str "by_user") [str "(payload->>_user_id)", str "created_at"]
        (str "gin") (str "processed_at IS NULL")))
      = CustomIndex.mk (str "by_user") [str "(payload->>_user_id)", str "created_at"]
        (str "gin") (str "processed_at IS NULL") :=
  C3_parse_roundtrip (str "public") (str "q")
    (CustomIndex.mk (str "by_user") [str "(payload->>_user_id)", str "created_at"]
      (str "gin") (str "processed_at IS NULL"))
    (by decide) (by decide) (by decide) (by decide) (by decide) (by decide) (by decide)
    (by decide) (by decide) (by decide) (by decide) (by decide) (by decide) (by decide)
    (by decide)
